import Mathlib

/-!
Verification of the Shortee notes application (src/shortee_app.py).

The development shallowly embeds the parts of the program that the
specification talks about: the Note data model, the NotesService store
operations and their persistence round trip, the EmailService address
validation, and the extractive Summarizer.  Python strings are modelled
as lists of characters with ASCII semantics.  The IEEE binary64 floats
in which sentence scores are computed are modelled exactly: every value
arising there is a nonnegative dyadic rational, represented as a
mantissa-exponent pair, and every arithmetic operation performs the
exact operation followed by explicit round-to-nearest-even at 53
significand bits.  Python's stable sort `sorted` / `list.sort` is
modelled by a stable insertion sort, which agrees extensionally with
every stable sort for a total transitive comparison.  Calls to
`datetime.now()` are made explicit as a `now` argument.
-/

namespace Shortee

/-- Strings of the Python program, as lists of characters. -/
abbrev Str := List Char

/-- Python whitespace for `str.strip` and the regex class `\s` (ASCII range). -/
def isPySpace (c : Char) : Bool :=
  c = ' ' || c = '\t' || c = '\n' || c = '\r' || c = Char.ofNat 11 || c = Char.ofNat 12

/-- Python `str.strip()`: drop leading and trailing whitespace. -/
def pyStrip (s : Str) : Str :=
  ((s.dropWhile isPySpace).reverse.dropWhile isPySpace).reverse

/-- Python `str.lower()`, per character (ASCII semantics). -/
def lowerStr (s : Str) : Str := s.map Char.toLower

/-- Tests whether `hay` starts with `needle`. -/
def leadsList : Str → Str → Bool
  | [], _ => true
  | _ :: _, [] => false
  | a :: as, b :: bs => a == b && leadsList as bs

/-- Python substring test `needle in hay`. -/
def containsSub (hay needle : Str) : Bool :=
  if leadsList needle hay then true
  else
    match hay with
    | [] => false
    | _ :: t => containsSub t needle

/-- Python `str.split(sep)` for a one-character separator. -/
def pySplit (sep : Char) : Str → List Str
  | [] => [[]]
  | c :: rest =>
    if c = sep then [] :: pySplit sep rest
    else
      match pySplit sep rest with
      | [] => [[c]]
      | h :: t => (c :: h) :: t

/-- Insertion into a sorted list, in front of the first element not
below the inserted one; ties keep the inserted element first. -/
def insortOne (le : α → α → Bool) (a : α) : List α → List α
  | [] => [a]
  | b :: bs => if le a b then a :: b :: bs else b :: insortOne le a bs

/-- Stable insertion sort.  Python's `sorted` and `list.sort` are stable
sorts, and a stable sort is extensionally unique for a total transitive
comparison, so this models them faithfully. -/
def stableSort (le : α → α → Bool) : List α → List α
  | [] => []
  | a :: as => insortOne le a (stableSort le as)

/-- Python string comparison `<=` (lexicographic on code points). -/
def strLe : Str → Str → Bool
  | [], _ => true
  | _ :: _, [] => false
  | a :: as, b :: bs => if a < b then true else if b < a then false else strLe as bs

/-! ### The Note data model (class Note) -/

/-- The Note record: id, title, content and the two timestamps. -/
structure Note where
  id : Str
  title : Str
  content : Str
  created_at : Str
  updated_at : Str
  deriving DecidableEq

/-- The serialized form produced by `Note.to_dict` and consumed by
`Note.from_dict`: one JSON object with the five string fields. -/
structure NoteDict where
  id : Str
  title : Str
  content : Str
  created_at : Str
  updated_at : Str
  deriving DecidableEq

/-- The constructor `Note.__init__(title, content, note_id, created_at)`:
`id` is `note_id or now`, `created_at` is `created_at or now` (Python `or`
falls through on `None` and on the empty string, both modelled by `[]`),
and `updated_at` is always set to `now`.  The constructor has no
`updated_at` parameter at all. -/
def mkNote (now title content noteId createdAt : Str) : Note :=
  ⟨if noteId = [] then now else noteId, title, content,
   if createdAt = [] then now else createdAt, now⟩

/-- Method `Note.to_dict`. -/
def toDict (n : Note) : NoteDict :=
  ⟨n.id, n.title, n.content, n.created_at, n.updated_at⟩

/-- Method `Note.from_dict`: rebuilds the note through `Note.__init__`,
passing only `title`, `content`, `id` and `created_at`; the stored
`updated_at` is never read. -/
def fromDict (now : Str) (d : NoteDict) : Note :=
  mkNote now d.title d.content d.id d.created_at

/-! ### NotesService -/

/-- Method `NotesService._save_notes`: serializes every note via
`to_dict`, in collection order, into the backing file. -/
def saveNotes (notes : List Note) : List NoteDict := notes.map toDict

/-- Method `NotesService._load_notes` on a readable file holding `data`:
maps `Note.from_dict` over the stored objects, in file order.  `now` is
the load time. -/
def loadNotes (now : Str) (data : List NoteDict) : List Note :=
  data.map (fromDict now)

/-- Method `NotesService.add_note`: constructs `Note(title, content)`,
appends it and returns it.  The method performs no validation. -/
def addNote (now : Str) (notes : List Note) (title content : Str) :
    List Note × Note :=
  (notes ++ [mkNote now title content [] []], mkNote now title content [] [])

/-- Method `NotesService.update_note`: the first note whose id matches is
given the new title and content and a refreshed `updated_at`; the Bool is
the returned success flag. -/
def updateNote (now noteId title content : Str) : List Note → List Note × Bool
  | [] => ([], false)
  | n :: rest =>
    if n.id = noteId then
      (⟨n.id, title, content, n.created_at, now⟩ :: rest, true)
    else
      let r := updateNote now noteId title content rest
      (n :: r.1, r.2)

/-- Method `NotesService.delete_note`: removes the first note whose id
matches; the Bool is the returned success flag. -/
def deleteNote (noteId : Str) : List Note → List Note × Bool
  | [] => ([], false)
  | n :: rest =>
    if n.id = noteId then (rest, true)
    else
      let r := deleteNote noteId rest
      (n :: r.1, r.2)

/-- Method `NotesService.get_note`. -/
def getNote (noteId : Str) : List Note → Option Note
  | [] => none
  | n :: rest => if n.id = noteId then some n else getNote noteId rest

/-- Method `NotesService.search_notes`: lower-cases the query once and
keeps the notes whose lowered title or lowered content contains it. -/
def searchNotes (notes : List Note) (query : Str) : List Note :=
  notes.filter fun n =>
    containsSub (lowerStr n.title) (lowerStr query) ||
      containsSub (lowerStr n.content) (lowerStr query)

/-- Method `NotesService.sort_notes`: three recognized criteria, sorted
copies of the collection (`sorted` with `reverse=True` is the stable
descending sort); any other criterion returns the collection itself. -/
def sortNotes (notes : List Note) (sortBy : Str) : List Note :=
  if sortBy = "date_desc".toList then
    stableSort (fun a b => strLe b.created_at a.created_at) notes
  else if sortBy = "date_asc".toList then
    stableSort (fun a b => strLe a.created_at b.created_at) notes
  else if sortBy = "title".toList then
    stableSort (fun a b => strLe a.title b.title) notes
  else notes

/-- The `save` handler of the New Note dialog (`ShorteeApp._new_note`):
trims both entries, rejects when either is empty after trimming (the
error dialog is modelled by `false`), otherwise calls `add_note` with the
trimmed values. -/
def uiNewNoteSave (now : Str) (notes : List Note) (titleRaw contentRaw : Str) :
    List Note × Bool :=
  if pyStrip titleRaw = [] ∨ pyStrip contentRaw = [] then (notes, false)
  else ((addNote now notes (pyStrip titleRaw) (pyStrip contentRaw)).1, true)

/-! ### Summarizer -/

/-- Sentence-terminal punctuation of the segmentation regex. -/
def isTermChar (c : Char) : Bool := c = '.' || c = '!' || c = '?'

/-- The splitter of `Summarizer._sentences`, scanning left to right with
lookbehind character `prev` and the current fragment `acc` in reverse: a
whitespace character immediately preceded by terminal punctuation, or a
newline, ends the current fragment.  The regex consumes a whole
whitespace run `\s+` after terminal punctuation as one separator; here
only its first character separates, and the remaining run characters
(never preceded by punctuation) either lead the following fragment or
separate again at newlines, producing leading whitespace and empty
fragments that the strip-and-filter step of `_sentences` below removes,
so the value of `_sentences` is unchanged. -/
def splitSentAux (prev : Char) (acc : Str) : Str → List Str
  | [] => [acc.reverse]
  | c :: rest =>
    if isTermChar prev && isPySpace c then
      acc.reverse :: splitSentAux c [] rest
    else if c = '\n' then
      acc.reverse :: splitSentAux c [] rest
    else
      splitSentAux c (c :: acc) rest

/-- Method `Summarizer._sentences`: strip the text, split it at the
regex boundaries, strip every fragment and keep the non-empty ones. -/
def pySentences (text : Str) : List Str :=
  ((splitSentAux ' ' [] (pyStrip text)).map pyStrip).filter fun p => !p.isEmpty

/-- Character class of the token regex: ASCII letters and apostrophes. -/
def isWordChar (c : Char) : Bool :=
  ('a' ≤ c && c ≤ 'z') || ('A' ≤ c && c ≤ 'Z') || c = Char.ofNat 39

/-- Scanner for the token regex: `acc` holds the current run of word
characters in reverse; a non-word character (or the end) closes the
run. -/
def findWordsAux (acc : Str) : Str → List Str
  | [] => if acc = [] then [] else [acc.reverse]
  | c :: rest =>
    if isWordChar c then findWordsAux (c :: acc) rest
    else if acc = [] then findWordsAux [] rest
    else acc.reverse :: findWordsAux [] rest

/-- The token regex `findall` over a string: the maximal runs of word
characters, in order. -/
def findWords (s : Str) : List Str := findWordsAux [] s

/-- The stop-word set `Summarizer.STOPWORDS`. -/
def STOPWORDS : List Str :=
  ["a", "an", "the", "and", "or", "but", "if", "while", "with", "at", "by", "for",
   "from", "into", "on", "onto", "of", "to", "in", "out", "over", "then", "so", "as",
   "is", "are", "was", "were", "be", "been", "being", "this", "that", "it", "its",
   "their", "they", "them", "you", "your", "i", "we", "our", "us", "he", "she", "his",
   "hers", "do", "does", "did", "can", "could", "should", "would", "will", "just", "about",
   "not", "no", "yes", "very"].map String.toList

/-- Membership in the stop-word set. -/
def isStop (w : Str) : Bool := STOPWORDS.contains w

/-- The counting loop of `Summarizer._word_freq`, threading the dict as
the function it is read through (`freq.get(w, 0)`): stop words and
tokens of length at most two are skipped, every other token bumps its
count. -/
def wordFreqAux : List Str → (Str → Nat) → (Str → Nat)
  | [], f => f
  | w :: ws, f =>
    if isStop w ∨ w.length ≤ 2 then wordFreqAux ws f
    else wordFreqAux ws fun x => if x = w then f x + 1 else f x

/-- Method `Summarizer._word_freq`: token counts of the lowered text. -/
def wordFreq (text : Str) : Str → Nat :=
  wordFreqAux (findWords (lowerStr text)) fun _ => 0

/-- Python `enumerate`. -/
def enumFromN (i : Nat) : List α → List (Nat × α)
  | [] => []
  | a :: as => (i, a) :: enumFromN (i + 1) as

/-! #### Binary64 arithmetic

The sentence scores of `summarize` are computed by Python in IEEE
binary64 floating point.  Every float arising there is a nonnegative
finite value, represented here exactly as a dyadic rational `m / 2 ^ e`,
and every operation performs the exact rational operation followed by
round-to-nearest-even at 53 significand bits - the IEEE semantics.  The
exponent is unbounded: the scores of this program lie between `0.02`
and roughly the text length, so overflow, subnormals, NaNs and
infinities are unreachable for every representable input.  IEEE
comparison of finite doubles is rational comparison, and float negation
(for the sort key `-score`) is exact, so `-a < -b` is modelled as
`b < a`. -/

/-- A nonnegative dyadic rational `m / 2 ^ e`: the exact value of a
nonnegative finite double. -/
structure Dy where
  m : ℕ
  e : ℕ
  deriving DecidableEq

/-- Binary digit count, with explicit fuel so that the kernel can
evaluate it; fuel `n` always suffices for input `n`. -/
def bitlenAux : ℕ → ℕ → ℕ
  | 0, _ => 0
  | f + 1, n => if n = 0 then 0 else bitlenAux f (n / 2) + 1

/-- Number of binary digits of a natural number. -/
def bitlen (n : ℕ) : ℕ := bitlenAux n n

/-- Round-to-nearest-even at a 53-bit significand: the binary64
rounding of the exact dyadic value `a / 2 ^ s`.  The top 53 bits of `a`
are kept; the dropped remainder rounds up when above one half of its
range, down when below, and to the even neighbour on an exact tie. -/
def round64 : Dy → Dy
  | ⟨a, s⟩ =>
    let t := bitlen a
    if t ≤ 53 then ⟨a, s⟩
    else
      let sh := t - 53
      let q := a / 2 ^ sh
      let r := a % 2 ^ sh
      let half := 2 ^ (sh - 1)
      let m := if half < r then q + 1
               else if r < half then q
               else if q % 2 = 1 then q + 1 else q
      if s ≤ sh then ⟨m * 2 ^ (sh - s), 0⟩ else ⟨m, s - sh⟩

/-- Conversion of a nonnegative Python int to float (CPython rounds to
nearest even). -/
def dyOfNat (n : ℕ) : Dy := round64 ⟨n, 0⟩

/-- Float multiplication: the exact product, rounded once. -/
def dyMul (a b : Dy) : Dy := round64 ⟨a.m * b.m, a.e + b.e⟩

/-- Float addition: the exact sum, rounded once. -/
def dyAdd (a b : Dy) : Dy := round64 ⟨a.m * 2 ^ b.e + b.m * 2 ^ a.e, a.e + b.e⟩

/-- Value-level strict comparison of two dyadic rationals (IEEE
comparison of finite doubles). -/
def dyLt (a b : Dy) : Bool := decide (a.m * 2 ^ b.e < b.m * 2 ^ a.e)

/-- The binary64 value of the Python literal `0.02`:
`5764607523034235 / 2 ^ 58`, slightly above `1 / 50`. -/
def c02 : Dy := ⟨5764607523034235, 58⟩

/-- The score of a sentence in `Summarizer.summarize`, computed as the
source computes it: the Python int `sum(freq.get(w, 0) ...)` and the
Python int `max(0, total - idx)` are each converted to binary64, the
latter is multiplied by the float literal `0.02`, and the two are
added; every operation rounds once. -/
def scoreOf (freq : Str → Nat) (total idx : Nat) (sent : Str) : Dy :=
  dyAdd (dyOfNat ((findWords (lowerStr sent)).map freq).sum)
    (dyMul (dyOfNat (max 0 ((total : ℤ) - (idx : ℤ))).toNat) c02)

/-- Comparison underlying `scored.sort(key=lambda x: (-x[0], x[1]))`:
lexicographic on the pair of negated score and ordinal index; float
negation is exact, so `-a < -b` is `b < a`. -/
def rankLe (a b : Dy × Nat × Str) : Bool :=
  if dyLt b.1 a.1 then true
  else if dyLt a.1 b.1 then false
  else a.2.1 ≤ b.2.1

/-- Comparison underlying `sorted(..., key=lambda x: x[1])`. -/
def idxLe (a b : α × Nat × Str) : Bool := a.2.1 ≤ b.2.1

/-- The join separator of `summarize`. -/
def joinSep : List Str → Str := List.intercalate " \n".toList

/-- Method `Summarizer.summarize`: empty result on empty or
whitespace-only text, all sentences joined when there are at most
`maxSentences` of them, otherwise score, rank, take the best
`maxSentences`, restore reading order and join. -/
def summarize (text : Str) (maxSentences : Nat) : Str :=
  if text.isEmpty || (pyStrip text).isEmpty then []
  else
    let sentences := pySentences text
    if sentences.length ≤ maxSentences then joinSep sentences
    else
      let freq := wordFreq text
      let scored := (enumFromN 0 sentences).map fun p =>
        (scoreOf freq sentences.length p.1 p.2, p.1, p.2)
      let ranked := stableSort rankLe scored
      let top := stableSort idxLe (ranked.take maxSentences)
      joinSep (top.map fun t => t.2.2)

/-! ### Specification-side definitions

These follow the words of the specification (sections 4.2 and 4.3), to
be compared with the source embedding `summarize` above. -/

/-- Specification 4.2: the document-level frequency of a token is its
occurrence count among the document's tokens; stop words and tokens of
length at most two are excluded from scoring. -/
def specDocFreq (text : Str) (w : Str) : Nat :=
  if isStop w ∨ w.length ≤ 2 then 0
  else (findWords (lowerStr text)).count w

/-- Specification 4.3 step 4, with the arithmetic the source performs:
the frequency sum over the sentence's tokens and the positional factor
`totalSentences - ordinalIndex` are taken to binary64, the factor is
multiplied by the binary64 literal `0.02`, and the results are added,
each operation rounding once. -/
def specScore (text : Str) (total idx : Nat) (sent : Str) : Dy :=
  dyAdd (dyOfNat ((findWords (lowerStr sent)).map (specDocFreq text)).sum)
    (dyMul (dyOfNat (total - idx)) c02)

/-- Specification 4.3 steps 4 to 6, for the ranking case: score every
sentence, rank by `(-score, ordinalIndex)` ascending, keep the top
`maxSentences`, re-sort the selection by ordinal index and join. -/
def specSummarize (text : Str) (maxSentences : Nat) : Str :=
  let sentences := pySentences text
  let scored := (enumFromN 0 sentences).map fun p =>
    (specScore text sentences.length p.1 p.2, p.1, p.2)
  let ranked := stableSort rankLe scored
  let top := stableSort idxLe (ranked.take maxSentences)
  joinSep (top.map fun t => t.2.2)

/-! #### The scoring of claim C3 read with exact real arithmetic

Claim C3 states the score as the real number
`freqSum + (totalSentences - ordinalIndex) * 0.02` and the ranking as
`(-score, ordinalIndex)` ascending.  The following pipeline formalizes
that reading literally over the rationals; the program computes in
binary64 instead, and the two pipelines disagree on exact score ties,
which is the counterexample below.  Because rational arithmetic does
not evaluate inside the kernel, an order-isomorphic integer copy is
also defined - the exact score scaled by `50` is the integer
`50 * freqSum + (totalSentences - ordinalIndex)`, and scaling by `50`
is strictly monotone, so the scaled pipeline ranks exactly as the
rational one; the equivalence is proved below, not assumed. -/

/-- The sentence score of claim C3 in exact arithmetic. -/
def exactScore (text : Str) (total idx : Nat) (sent : Str) : ℚ :=
  (((findWords (lowerStr sent)).map (specDocFreq text)).sum : ℚ) +
    ((total : ℚ) - (idx : ℚ)) * (2 / 100)

/-- Ranking by `(-score, ordinalIndex)` ascending on exact scores. -/
def exactRankLe (a b : ℚ × Nat × Str) : Bool :=
  if -a.1 < -b.1 then true
  else if -b.1 < -a.1 then false
  else a.2.1 ≤ b.2.1

/-- Claim C3 read with exact real arithmetic: score each sentence, rank
by `(-score, ordinalIndex)` ascending, keep the top `maxSentences`,
re-sort the selection by ordinal index, join. -/
def exactSummarize (text : Str) (maxSentences : Nat) : Str :=
  let sentences := pySentences text
  let scored := (enumFromN 0 sentences).map fun p =>
    (exactScore text sentences.length p.1 p.2, p.1, p.2)
  let ranked := stableSort exactRankLe scored
  let top := stableSort idxLe (ranked.take maxSentences)
  joinSep (top.map fun t => t.2.2)

/-- The exact score scaled by `50`: an integer carrying the same
order. -/
def exactScore50 (text : Str) (total idx : Nat) (sent : Str) : ℕ :=
  50 * ((findWords (lowerStr sent)).map (specDocFreq text)).sum + (total - idx)

/-- Ranking by `(-score, ordinalIndex)` ascending on the scaled
scores. -/
def exactRank50Le (a b : ℕ × Nat × Str) : Bool :=
  if b.1 < a.1 then true
  else if a.1 < b.1 then false
  else a.2.1 ≤ b.2.1

/-- The exact pipeline of claim C3 over the scaled integer scores. -/
def exactSummarize50 (text : Str) (maxSentences : Nat) : Str :=
  let sentences := pySentences text
  let scored := (enumFromN 0 sentences).map fun p =>
    (exactScore50 text sentences.length p.1 p.2, p.1, p.2)
  let ranked := stableSort exactRank50Le scored
  let top := stableSort idxLe (ranked.take maxSentences)
  joinSep (top.map fun t => t.2.2)

/-- The 84-sentence document separating float ranking from exact
ranking: sentence 50 (`zeb.`) is the only one with a scoring token, so
its exact score `1 + 34 * 0.02` ties the exact score `84 * 0.02` of
sentence 0, while in binary64 the former is strictly larger. -/
def cexText : Str :=
  (List.replicate 50 "a. ".toList).flatten ++ "zeb. ".toList ++
    (List.replicate 33 "a. ".toList).flatten

/-! ### EmailService -/

/-- Method `EmailService.is_valid_email`: an at sign occurs, and the
piece `email.split(at)[1]` , the segment between the first and the
second at sign, contains a dot. -/
def isValidEmail (e : Str) : Bool :=
  decide ('@' ∈ e) && decide ('.' ∈ (pySplit '@' e).getD 1 [])

/-- The validation performed by `EmailService.send_email._send` before
any SMTP object is created, in source order: all five parameters must be
non-empty (Python truthiness) and both addresses must pass
`is_valid_email`.  `some msg` models the raised `ValueError`; `none`
means control reaches the SMTP transport. -/
def sendEmailValidate (recipient sender password subject body : Str) :
    Option Str :=
  if recipient = [] ∨ sender = [] ∨ password = [] ∨ subject = [] ∨ body = [] then
    some "Missing email parameters".toList
  else if ¬ isValidEmail recipient then some ("Invalid recipient: ".toList ++ recipient)
  else if ¬ isValidEmail sender then some ("Invalid sender: ".toList ++ sender)
  else none

/-! ### Basic lemmas about stripping and substring search -/

/-- The empty needle is a substring of every string (Python `"" in s`). -/
theorem containsSub_nil (hay : Str) : containsSub hay [] = true := by
  rw [containsSub.eq_def]
  simp [leadsList]

/-- Membership survives `dropWhile`. -/
theorem mem_of_mem_dropWhile {p : α → Bool} {l : List α} {a : α}
    (h : a ∈ l.dropWhile p) : a ∈ l :=
  (List.dropWhile_sublist p).subset h

/-- A string strips to nothing exactly when it is all whitespace. -/
theorem pyStrip_eq_nil_iff {s : Str} :
    pyStrip s = [] ↔ ∀ c ∈ s, isPySpace c = true := by
  unfold pyStrip
  rw [List.reverse_eq_nil_iff, List.dropWhile_eq_nil_iff]
  constructor
  · intro h c hc
    have hc2 : c ∈ List.takeWhile isPySpace s ++ List.dropWhile isPySpace s := by
      rw [List.takeWhile_append_dropWhile]
      exact hc
    rcases List.mem_append.mp hc2 with h1 | h1
    · exact List.mem_takeWhile_imp h1
    · exact h c (List.mem_reverse.mpr h1)
  · intro h c hc
    exact h c (mem_of_mem_dropWhile (List.mem_reverse.mp hc))

/-! ### Claim C10 -/

/-- C10: `search_notes` with the empty query returns the entire
collection in stored order, because the empty string is a substring of
every string; the store does not special-case the empty query. -/
theorem claim_C10_empty_query_returns_all (notes : List Note) (s : Str) :
    searchNotes notes [] = notes ∧ containsSub s [] = true := by
  refine ⟨?_, containsSub_nil s⟩
  unfold searchNotes
  rw [List.filter_eq_self]
  intro n _
  simp [lowerStr, containsSub_nil]

/-! ### Claim C4 -/

/-- C4: on an id absent from the store, `update_note` and `delete_note`
leave the collection unchanged and return the explicit failure flag
`False`; no exception is involved (both embeddings are total). -/
theorem claim_C4_not_found_leaves_store_unchanged (now noteId title content : Str)
    (notes : List Note) (h : ∀ n ∈ notes, n.id ≠ noteId) :
    updateNote now noteId title content notes = (notes, false) ∧
      deleteNote noteId notes = (notes, false) := by
  induction notes with
  | nil => exact ⟨rfl, rfl⟩
  | cons n rest ih =>
    have hn : n.id ≠ noteId := h n (List.mem_cons_self n rest)
    have hr := ih fun m hm => h m (List.mem_cons_of_mem n hm)
    constructor
    · simp [updateNote, if_neg hn, hr.1]
    · simp [deleteNote, if_neg hn, hr.2]

/-- Concrete witness note for the not-found contract. -/
def w4note : Note :=
  ⟨"a".toList, "t".toList, "c".toList, "d".toList, "u".toList⟩

/-- Witness for C4 at a concrete store and missing id. -/
theorem claim_C4_witness :
    (∀ n ∈ [w4note], n.id ≠ "zzz".toList) ∧
      (updateNote "t2".toList "zzz".toList "nt".toList "nc".toList [w4note] =
          ([w4note], false) ∧
        deleteNote "zzz".toList [w4note] = ([w4note], false)) :=
  ⟨by decide,
    claim_C4_not_found_leaves_store_unchanged "t2".toList "zzz".toList
      "nt".toList "nc".toList [w4note] (by decide)⟩

/-! ### Claim C2 -/

/-- C2 counterexample: `add_note` called with empty title and content
still creates, appends and returns a note; no validation error occurs.
This falsifies the claim that no note is created when a field is empty
after trimming. -/
theorem counterexample_C2_add_note_accepts_empty :
    (addNote "t0".toList [] [] []).1 =
        [⟨"t0".toList, [], [], "t0".toList, "t0".toList⟩] ∧
      (addNote "t0".toList [] [] []).2 =
        ⟨"t0".toList, [], [], "t0".toList, "t0".toList⟩ := by
  exact ⟨by decide, by decide⟩

/-- C2 amended: `add_note` itself performs no validation: for every
title and content, even empty ones, it appends exactly one note with
fresh id and timestamps and returns it.  The empty-after-trimming
rejection lives in the New Note dialog handler, which reports a
validation error and never calls `add_note` when a trimmed field is
empty, and otherwise adds a note carrying the trimmed values. -/
theorem claim_C2_validation_is_in_the_dialog (now title content : Str)
    (notes : List Note) :
    addNote now notes title content =
        (notes ++ [Note.mk now title content now now],
          Note.mk now title content now now) ∧
      (pyStrip title = [] ∨ pyStrip content = [] →
        uiNewNoteSave now notes title content = (notes, false)) ∧
      (pyStrip title ≠ [] → pyStrip content ≠ [] →
        uiNewNoteSave now notes title content =
          (notes ++ [Note.mk now (pyStrip title) (pyStrip content) now now], true)) := by
  refine ⟨rfl, ?_, ?_⟩
  · intro h
    simp [uiNewNoteSave, h]
  · intro h1 h2
    simp [uiNewNoteSave, h1, h2, addNote, mkNote]

/-- Witness for C2 at concrete inputs: one run through the rejecting
branch is visible in the amended theorem; here the accepting branch is
instantiated. -/
theorem claim_C2_witness :
    pyStrip " a".toList ≠ [] ∧ pyStrip "b".toList ≠ [] ∧
      uiNewNoteSave "t1".toList [] " a".toList "b".toList =
        ([Note.mk "t1".toList "a".toList "b".toList "t1".toList "t1".toList], true) :=
  ⟨by decide, by decide,
    (claim_C2_validation_is_in_the_dialog "t1".toList " a".toList "b".toList []).2.2
      (by decide) (by decide)⟩

/-! ### Claim C1 -/

/-- C1: the persistence round trip does not reproduce `updated_at`.
`to_dict` writes all five fields, but `from_dict` never passes the
stored `updated_at` to `Note.__init__`, which unconditionally stamps the
current time; saving and reloading reproduces id, title, content,
created_at and order, yet resets every note's `updated_at` to the load
time. -/
theorem claim_C1_roundtrip_resets_updated_at :
    loadNotes "2024-06-02T00:00:00".toList
        (saveNotes [⟨"2024-01-01T10:00:00".toList, "T".toList, "C".toList,
          "2024-01-01T10:00:00".toList, "2024-03-05T09:00:00".toList⟩]) =
      [⟨"2024-01-01T10:00:00".toList, "T".toList, "C".toList,
        "2024-01-01T10:00:00".toList, "2024-06-02T00:00:00".toList⟩] ∧
    loadNotes "2024-06-02T00:00:00".toList
        (saveNotes [⟨"2024-01-01T10:00:00".toList, "T".toList, "C".toList,
          "2024-01-01T10:00:00".toList, "2024-03-05T09:00:00".toList⟩]) ≠
      [⟨"2024-01-01T10:00:00".toList, "T".toList, "C".toList,
        "2024-01-01T10:00:00".toList, "2024-03-05T09:00:00".toList⟩] := by
  exact ⟨by decide, by decide⟩

/-! ### Claim C8 -/

/-- C8: `summarize` returns the empty string on every empty or
whitespace-only text (and the embedding is a total function: no input
raises). -/
theorem claim_C8_blank_text_gives_empty_summary (text : Str) (maxSentences : Nat)
    (h : ∀ c ∈ text, isPySpace c = true) :
    summarize text maxSentences = [] := by
  have hs : (pyStrip text).isEmpty = true :=
    List.isEmpty_iff.mpr (pyStrip_eq_nil_iff.mpr h)
  simp [summarize, hs]

/-- Witness for C8 on a whitespace-only text. -/
theorem claim_C8_witness :
    (∀ c ∈ " ".toList, isPySpace c = true) ∧ summarize " ".toList 3 = [] :=
  ⟨by decide, claim_C8_blank_text_gives_empty_summary " ".toList 3 (by decide)⟩

/-! ### Substring characterization (for claim C5) -/

/-- Characterization of the starts-with test. -/
theorem leadsList_iff {needle hay : Str} :
    leadsList needle hay = true ↔ ∃ r, hay = needle ++ r := by
  induction needle generalizing hay with
  | nil => simp [leadsList]
  | cons a as ih =>
    cases hay with
    | nil => simp [leadsList]
    | cons b bs =>
      simp only [leadsList, Bool.and_eq_true, beq_iff_eq, ih]
      constructor
      · rintro ⟨rfl, r, rfl⟩
        exact ⟨r, rfl⟩
      · rintro ⟨r, h⟩
        rw [List.cons_append, List.cons.injEq] at h
        exact ⟨h.1.symm, r, h.2⟩

/-- Unfolding equation of the substring test in Bool-or form. -/
theorem containsSub_eq (hay needle : Str) :
    containsSub hay needle =
      (leadsList needle hay ||
        match hay with
        | [] => false
        | _ :: t => containsSub t needle) := by
  rw [containsSub.eq_def]
  by_cases h : leadsList needle hay = true
  · rw [if_pos h, h, Bool.true_or]
  · rw [if_neg h, Bool.eq_false_iff.mpr h, Bool.false_or]

/-- The substring test agrees with the mathematical decomposition of the
haystack around the needle. -/
theorem containsSub_iff {needle : Str} : ∀ {hay : Str},
    containsSub hay needle = true ↔ ∃ l r, hay = l ++ needle ++ r := by
  intro hay
  induction hay with
  | nil =>
    rw [containsSub_eq]
    simp only [Bool.or_false, leadsList_iff]
    constructor
    · rintro ⟨r, h⟩
      exact ⟨[], r, by simpa using h⟩
    · rintro ⟨l, r, h⟩
      rcases List.append_eq_nil.mp (List.append_eq_nil.mp h.symm).1 with ⟨-, h2⟩
      exact ⟨[], by simp [h2]⟩
  | cons c t ih =>
    rw [containsSub_eq]
    simp only [Bool.or_eq_true, leadsList_iff, ih]
    constructor
    · rintro (⟨r, h⟩ | ⟨l, r, h⟩)
      · exact ⟨[], r, by simpa using h⟩
      · exact ⟨c :: l, r, by simp [h]⟩
    · rintro ⟨l, r, h⟩
      cases l with
      | nil => exact Or.inl ⟨r, by simpa using h⟩
      | cons x xs =>
        right
        rw [List.cons_append, List.cons_append, List.cons.injEq] at h
        exact ⟨xs, r, h.2⟩

/-- A mapped needle occurs in a mapped haystack exactly when the
haystack decomposes around a segment whose image is the needle's
image. -/
theorem map_decomp_iff (f : Char → Char) (s q : Str) :
    (∃ ll rr, s.map f = ll ++ q.map f ++ rr) ↔
      ∃ l m r, s = l ++ m ++ r ∧ m.map f = q.map f := by
  constructor
  · rintro ⟨ll, rr, h⟩
    rw [List.append_assoc] at h
    refine ⟨s.take ll.length, (s.drop ll.length).take q.length,
      (s.drop ll.length).drop q.length, ?_, ?_⟩
    · rw [List.append_assoc, List.take_append_drop, List.take_append_drop]
    · rw [List.map_take, List.map_drop, h, List.drop_left, ← List.length_map q f,
        List.take_left]
  · rintro ⟨l, m, r, rfl, hm⟩
    exact ⟨l.map f, r.map f, by simp [hm]⟩

/-! ### Claim C5 -/

/-- C5: a note is returned by `search_notes` exactly when it belongs to
the store and its title or content contains the query as a
case-insensitive substring (a contiguous segment whose lower-casing is
the lower-cased query); all other notes are excluded. -/
theorem claim_C5_search_returns_exact_ci_matches (notes : List Note) (query : Str)
    (n : Note) :
    n ∈ searchNotes notes query ↔
      n ∈ notes ∧
        ((∃ l m r, n.title = l ++ m ++ r ∧ lowerStr m = lowerStr query) ∨
         (∃ l m r, n.content = l ++ m ++ r ∧ lowerStr m = lowerStr query)) := by
  have key : ∀ s : Str, containsSub (lowerStr s) (lowerStr query) = true ↔
      ∃ l m r, s = l ++ m ++ r ∧ lowerStr m = lowerStr query := by
    intro s
    rw [containsSub_iff]
    exact map_decomp_iff Char.toLower s query
  unfold searchNotes
  rw [List.mem_filter, Bool.or_eq_true, key n.title, key n.content]

/-! ### Stable sort lemmas (for claim C6) -/

/-- Inserting permutes to consing. -/
theorem insortOne_perm (le : α → α → Bool) (a : α) (l : List α) :
    List.Perm (insortOne le a l) (a :: l) := by
  induction l with
  | nil => exact List.Perm.refl _
  | cons b bs ih =>
    by_cases h : le a b = true
    · simp only [insortOne, if_pos h]
      exact List.Perm.refl _
    · simp only [insortOne, if_neg h]
      exact (ih.cons b).trans (List.Perm.swap a b bs)

/-- The stable sort permutes its input. -/
theorem stableSort_perm (le : α → α → Bool) (l : List α) :
    List.Perm (stableSort le l) l := by
  induction l with
  | nil => exact List.Perm.refl _
  | cons a as ih => exact (insortOne_perm le a (stableSort le as)).trans (ih.cons a)

/-- Membership after insertion. -/
theorem mem_insortOne {le : α → α → Bool} {a x : α} {l : List α} :
    x ∈ insortOne le a l ↔ x = a ∨ x ∈ l :=
  (insortOne_perm le a l).mem_iff.trans List.mem_cons

/-- Insertion preserves sortedness for a transitive total comparison. -/
theorem insortOne_pairwise {le : α → α → Bool}
    (htrans : ∀ a b c, le a b = true → le b c = true → le a c = true)
    (htotal : ∀ a b, le a b = true ∨ le b a = true)
    (a : α) {l : List α} (hl : l.Pairwise fun x y => le x y = true) :
    (insortOne le a l).Pairwise fun x y => le x y = true := by
  induction l with
  | nil => simp [insortOne]
  | cons b bs ih =>
    rw [List.pairwise_cons] at hl
    by_cases h : le a b = true
    · simp only [insortOne, if_pos h]
      rw [List.pairwise_cons]
      refine ⟨?_, List.pairwise_cons.mpr hl⟩
      intro x hx
      rcases List.mem_cons.mp hx with rfl | hx2
      · exact h
      · exact htrans a b x h (hl.1 x hx2)
    · simp only [insortOne, if_neg h]
      rw [List.pairwise_cons]
      refine ⟨?_, ih hl.2⟩
      intro x hx
      rcases mem_insortOne.mp hx with hxa | hx2
      · rw [hxa]
        rcases htotal a b with h1 | h1
        · exact absurd h1 h
        · exact h1
      · exact hl.1 x hx2

/-- The stable sort sorts, for a transitive total comparison. -/
theorem stableSort_pairwise {le : α → α → Bool}
    (htrans : ∀ a b c, le a b = true → le b c = true → le a c = true)
    (htotal : ∀ a b, le a b = true ∨ le b a = true)
    (l : List α) :
    (stableSort le l).Pairwise fun x y => le x y = true := by
  induction l with
  | nil => simp [stableSort]
  | cons a as ih => exact insortOne_pairwise htrans htotal a ih

/-- Unfolding equation for the string comparison on cons cells. -/
theorem strLe_cons (a b : Char) (as bs : Str) :
    strLe (a :: as) (b :: bs) =
      if a < b then true else if b < a then false else strLe as bs := rfl

/-- The string comparison is total. -/
theorem strLe_total : ∀ a b : Str, strLe a b = true ∨ strLe b a = true
  | [], _ => Or.inl rfl
  | _ :: _, [] => Or.inr rfl
  | a :: as, b :: bs => by
    rcases lt_trichotomy a b with h | h | h
    · left
      rw [strLe_cons, if_pos h]
    · rcases strLe_total as bs with h2 | h2
      · left
        rw [strLe_cons, h, if_neg (lt_irrefl b), if_neg (lt_irrefl b)]
        exact h2
      · right
        rw [strLe_cons, ← h, if_neg (lt_irrefl a), if_neg (lt_irrefl a)]
        exact h2
    · right
      rw [strLe_cons, if_pos h]

/-- The string comparison is transitive. -/
theorem strLe_trans : ∀ a b c : Str,
    strLe a b = true → strLe b c = true → strLe a c = true
  | [], _, _, _, _ => rfl
  | _ :: _, [], _, h1, _ => by cases h1
  | _ :: _, _ :: _, [], _, h2 => by cases h2
  | a :: as, b :: bs, c :: cs, h1, h2 => by
    rw [strLe_cons] at h1 h2 ⊢
    rcases lt_trichotomy a b with hab | hab | hab
    · rcases lt_trichotomy b c with hbc | hbc | hbc
      · rw [if_pos (lt_trans hab hbc)]
      · rw [← hbc, if_pos hab]
      · rw [if_neg (asymm hbc), if_pos hbc] at h2
        cases h2
    · rw [hab, if_neg (lt_irrefl b), if_neg (lt_irrefl b)] at h1
      rw [hab]
      rcases lt_trichotomy b c with hbc | hbc | hbc
      · rw [if_pos hbc]
      · rw [hbc] at h2 ⊢
        rw [if_neg (lt_irrefl c), if_neg (lt_irrefl c)] at h2 ⊢
        exact strLe_trans as bs cs h1 h2
      · rw [if_neg (asymm hbc), if_pos hbc] at h2
        cases h2
    · rw [if_neg (asymm hab), if_pos hab] at h1
      cases h1

/-! ### Claim C6 -/

/-- The Alpha note of the specification scenario. -/
def alphaNote : Note :=
  ⟨"1".toList, "Alpha".toList, "Zebra runs fast.".toList,
   "2024-01-01".toList, "2024-01-01".toList⟩

/-- The Beta note of the specification scenario. -/
def betaNote : Note :=
  ⟨"2".toList, "Beta".toList, "Cats sleep all day.".toList,
   "2024-02-01".toList, "2024-02-01".toList⟩

/-- C6: `sort_notes` returns a permutation of the collection (the
collection itself is untouched: the embedding is a pure function of it);
`date_desc` sorts by `created_at` descending, `date_asc` ascending,
`title` lexicographically ascending on the raw title, any other
criterion returns the collection in insertion order, and the
specification scenario sorts to Beta before Alpha. -/
theorem claim_C6_sort_notes_orders (notes : List Note) :
    List.Perm (sortNotes notes "date_desc".toList) notes ∧
      (sortNotes notes "date_desc".toList).Pairwise
        (fun a b => strLe b.created_at a.created_at = true) ∧
    List.Perm (sortNotes notes "date_asc".toList) notes ∧
      (sortNotes notes "date_asc".toList).Pairwise
        (fun a b => strLe a.created_at b.created_at = true) ∧
    List.Perm (sortNotes notes "title".toList) notes ∧
      (sortNotes notes "title".toList).Pairwise
        (fun a b => strLe a.title b.title = true) ∧
    (∀ crit : Str, crit ≠ "date_desc".toList → crit ≠ "date_asc".toList →
      crit ≠ "title".toList → sortNotes notes crit = notes) ∧
    sortNotes [alphaNote, betaNote] "date_desc".toList = [betaNote, alphaNote] := by
  have e1 : sortNotes notes "date_desc".toList =
      stableSort (fun a b : Note => strLe b.created_at a.created_at) notes := by
    rw [sortNotes, if_pos rfl]
  have e2 : sortNotes notes "date_asc".toList =
      stableSort (fun a b : Note => strLe a.created_at b.created_at) notes := by
    rw [sortNotes, if_neg (by decide), if_pos rfl]
  have e3 : sortNotes notes "title".toList =
      stableSort (fun a b : Note => strLe a.title b.title) notes := by
    rw [sortNotes, if_neg (by decide), if_neg (by decide), if_pos rfl]
  refine ⟨?_, ?_, ?_, ?_, ?_, ?_, ?_, by decide⟩
  · rw [e1]
    exact stableSort_perm _ notes
  · rw [e1]
    exact @stableSort_pairwise Note (fun a b => strLe b.created_at a.created_at)
      (fun a b c h1 h2 => strLe_trans _ _ _ h2 h1)
      (fun a b => strLe_total b.created_at a.created_at) notes
  · rw [e2]
    exact stableSort_perm _ notes
  · rw [e2]
    exact @stableSort_pairwise Note (fun a b => strLe a.created_at b.created_at)
      (fun a b c h1 h2 => strLe_trans _ _ _ h1 h2)
      (fun a b => strLe_total a.created_at b.created_at) notes
  · rw [e3]
    exact stableSort_perm _ notes
  · rw [e3]
    exact @stableSort_pairwise Note (fun a b => strLe a.title b.title)
      (fun a b c h1 h2 => strLe_trans _ _ _ h1 h2)
      (fun a b => strLe_total a.title b.title) notes
  · intro crit h1 h2 h3
    rw [sortNotes, if_neg h1, if_neg h2, if_neg h3]

/-- Witness for C6 instantiating the unrecognized-criterion branch at a
concrete store and criterion. -/
theorem claim_C6_witness :
    ("x".toList ≠ "date_desc".toList ∧ "x".toList ≠ "date_asc".toList ∧
      "x".toList ≠ "title".toList) ∧
      sortNotes [alphaNote] "x".toList = [alphaNote] :=
  ⟨by decide,
    (claim_C6_sort_notes_orders [alphaNote]).2.2.2.2.2.2.1 "x".toList
      (by decide) (by decide) (by decide)⟩

/-! ### Stripping is idempotent (for claim C7) -/

/-- The first survivor of `dropWhile` fails the predicate. -/
theorem dropWhile_head_false (p : α → Bool) : ∀ (l : List α) (c : α) (t : List α),
    l.dropWhile p = c :: t → p c = false
  | [], c, t, h => by cases h
  | x :: xs, c, t, h => by
    rw [List.dropWhile_cons] at h
    by_cases hx : p x = true
    · rw [if_pos hx] at h
      exact dropWhile_head_false p xs c t h
    · rw [if_neg hx] at h
      injection h with h1 _
      rw [← h1]
      exact Bool.eq_false_iff.mpr hx

/-- Dropping twice is dropping once. -/
theorem dropWhile_idem (p : α → Bool) (l : List α) :
    (l.dropWhile p).dropWhile p = l.dropWhile p := by
  cases hd : l.dropWhile p with
  | nil => rfl
  | cons c t =>
    rw [List.dropWhile_cons, dropWhile_head_false p l c t hd]
    simp

/-- Left-stripping an already stripped string does nothing. -/
theorem dropWhile_pyStrip (s : Str) :
    List.dropWhile isPySpace (pyStrip s) = pyStrip s := by
  obtain ⟨u, hu⟩ : ∃ u, List.dropWhile isPySpace s = pyStrip s ++ u := by
    refine ⟨(List.takeWhile isPySpace (s.dropWhile isPySpace).reverse).reverse, ?_⟩
    conv_lhs => rw [← List.reverse_reverse (List.dropWhile isPySpace s),
      ← List.takeWhile_append_dropWhile isPySpace (List.dropWhile isPySpace s).reverse]
    rw [List.reverse_append]
    rfl
  cases hps : pyStrip s with
  | nil => rfl
  | cons c t =>
    have hc : isPySpace c = false := by
      refine dropWhile_head_false isPySpace s c (t ++ u) ?_
      rw [hu, hps]
      rfl
    rw [List.dropWhile_cons, hc]
    simp

/-- Python stripping is idempotent. -/
theorem pyStrip_idem (s : Str) : pyStrip (pyStrip s) = pyStrip s := by
  have e : (pyStrip s).reverse =
      List.dropWhile isPySpace (s.dropWhile isPySpace).reverse := by
    unfold pyStrip
    rw [List.reverse_reverse]
  show ((List.dropWhile isPySpace (pyStrip s)).reverse.dropWhile isPySpace).reverse
      = pyStrip s
  rw [dropWhile_pyStrip, e, dropWhile_idem, ← e, List.reverse_reverse]

/-! ### Claim C7 -/

/-- Without terminal punctuation and newlines the splitter emits a
single fragment: the accumulator followed by the rest of the input. -/
theorem splitSentAux_no_boundary : ∀ (l : Str) (prev : Char) (acc : Str),
    isTermChar prev = false → (∀ c ∈ l, isTermChar c = false ∧ c ≠ '\n') →
    splitSentAux prev acc l = [acc.reverse ++ l]
  | [], _, acc, _, _ => by simp [splitSentAux]
  | c :: rest, prev, acc, hprev, hl => by
    have hc := hl c (List.mem_cons_self c rest)
    have hrest : ∀ x ∈ rest, isTermChar x = false ∧ x ≠ '\n' :=
      fun x hx => hl x (List.mem_cons_of_mem c hx)
    rw [splitSentAux, if_neg (by rw [hprev, Bool.false_and]; exact Bool.false_ne_true),
      if_neg hc.2, splitSentAux_no_boundary rest c (c :: acc) hc.1 hrest]
    simp

/-- C7 counterexample: the whitespace-only text consisting of one space
contains no terminal punctuation and no newline, yet `_sentences`
returns the empty sequence, not the one-element sequence holding the
trimmed text. -/
theorem counterexample_C7_blank_text :
    (∀ c ∈ " ".toList, isTermChar c = false ∧ c ≠ '\n') ∧
      pySentences " ".toList = [] ∧
      pySentences " ".toList ≠ [pyStrip " ".toList] := by
  refine ⟨by decide, by decide, by decide⟩

/-- C7 amended: for every text containing no terminal punctuation and no
newline and at least one non-whitespace character, `_sentences` returns
the one-element sequence holding the whole trimmed text.  (On
whitespace-only text it returns the empty sequence instead.) -/
theorem claim_C7_single_fragment (text : Str)
    (hterm : ∀ c ∈ text, isTermChar c = false ∧ c ≠ '\n')
    (hnb : ∃ c ∈ text, isPySpace c = false) :
    pySentences text = [pyStrip text] := by
  have hsub : ∀ c ∈ pyStrip text, c ∈ text := by
    intro c hc
    unfold pyStrip at hc
    rw [List.mem_reverse] at hc
    exact mem_of_mem_dropWhile (List.mem_reverse.mp (mem_of_mem_dropWhile hc))
  have hsplit : splitSentAux ' ' [] (pyStrip text) = [pyStrip text] := by
    have h := splitSentAux_no_boundary (pyStrip text) ' ' [] (by decide)
      fun c hc => hterm c (hsub c hc)
    simpa using h
  have hne : pyStrip text ≠ [] := by
    intro h
    obtain ⟨c, hc, hcf⟩ := hnb
    rw [pyStrip_eq_nil_iff.mp h c hc] at hcf
    cases hcf
  have hie : (pyStrip text).isEmpty = false := by
    cases h2 : pyStrip text with
    | nil => exact absurd h2 hne
    | cons c t => rfl
  unfold pySentences
  rw [hsplit]
  simp [pyStrip_idem, hie]

/-- Witness for C7 on a concrete punctuation-free text. -/
theorem claim_C7_witness :
    ((∀ c ∈ " hello world ".toList, isTermChar c = false ∧ c ≠ '\n') ∧
      (∃ c ∈ " hello world ".toList, isPySpace c = false)) ∧
      pySentences " hello world ".toList = [pyStrip " hello world ".toList] :=
  ⟨⟨by decide, by decide⟩,
    claim_C7_single_fragment " hello world ".toList (by decide) (by decide)⟩

/-! ### Claim C9 -/

/-- Splitting never yields the empty list of pieces. -/
theorem pySplit_ne_nil (sep : Char) : ∀ l : Str, pySplit sep l ≠ []
  | [] => by simp [pySplit]
  | c :: rest => by
    rw [pySplit]
    by_cases h : c = sep
    · rw [if_pos h]
      exact List.cons_ne_nil _ _
    · rw [if_neg h]
      cases hr : pySplit sep rest with
      | nil => exact absurd hr (pySplit_ne_nil sep rest)
      | cons x xs => exact List.cons_ne_nil _ _

/-- The first piece of a split is the run before the first separator. -/
theorem pySplit_head (sep : Char) : ∀ l : Str,
    (pySplit sep l).head? = some (l.takeWhile fun c => c != sep)
  | [] => by simp [pySplit]
  | c :: rest => by
    rw [pySplit]
    by_cases h : c = sep
    · rw [if_pos h, List.takeWhile_cons]
      simp [h]
    · rw [if_neg h]
      cases hr : pySplit sep rest with
      | nil => exact absurd hr (pySplit_ne_nil sep rest)
      | cons x xs =>
        have hx := pySplit_head sep rest
        rw [hr] at hx
        injection hx with hx1
        rw [List.takeWhile_cons]
        simp [h, hx1]

/-- The second piece of a split is the run between the first and the
second separator. -/
theorem pySplit_second (sep : Char) : ∀ l : Str, sep ∈ l →
    (pySplit sep l).getD 1 [] =
      ((l.dropWhile fun c => c != sep).tail).takeWhile fun c => c != sep
  | [], h => absurd h (List.not_mem_nil sep)
  | c :: rest, h => by
    rw [pySplit]
    by_cases hc : c = sep
    · rw [if_pos hc, List.dropWhile_cons]
      have : (c != sep) = false := by simp [hc]
      rw [this]
      simp only [Bool.false_eq_true, if_false, List.tail_cons]
      cases hr : pySplit sep rest with
      | nil => exact absurd hr (pySplit_ne_nil sep rest)
      | cons x xs =>
        have hx := pySplit_head sep rest
        rw [hr] at hx
        injection hx with hx1
    · have hrest : sep ∈ rest := by
        rcases List.mem_cons.mp h with h1 | h1
        · exact absurd h1.symm hc
        · exact h1
      rw [if_neg hc]
      cases hr : pySplit sep rest with
      | nil => exact absurd hr (pySplit_ne_nil sep rest)
      | cons x xs =>
        have hx := pySplit_second sep rest hrest
        rw [hr] at hx
        rw [List.dropWhile_cons]
        have : (c != sep) = true := by simp [hc]
        rw [this]
        simpa using hx

/-- C9 counterexample: the address `a@b@c.d` contains an at sign
followed later by a dot, yet `is_valid_email` rejects it, because the
code only inspects `split(at)[1]`, the segment between the first two at
signs.  This falsifies the claimed acceptance condition. -/
theorem counterexample_C9_second_at :
    isValidEmail "a@b@c.d".toList = false ∧
      '@' ∈ "a@b@c.d".toList ∧
      '.' ∈ ("a@b@c.d".toList.dropWhile fun c => c != '@').tail := by
  refine ⟨by decide, by decide, by decide⟩

/-- C9 amended: the send path reaches the SMTP transport exactly when
all five parameters are non-empty and both addresses pass
`is_valid_email` (otherwise a `ValueError` is raised first), and
`is_valid_email` accepts exactly the strings containing an at sign whose
segment between the first at sign and the next at sign (or the end)
contains a dot. -/
theorem claim_C9_transport_gated_by_validation
    (recipient sender password subject body : Str) :
    (sendEmailValidate recipient sender password subject body = none ↔
      recipient ≠ [] ∧ sender ≠ [] ∧ password ≠ [] ∧ subject ≠ [] ∧ body ≠ [] ∧
        isValidEmail recipient = true ∧ isValidEmail sender = true) ∧
    (isValidEmail recipient = true ↔
      '@' ∈ recipient ∧
        '.' ∈ ((recipient.dropWhile fun c => c != '@').tail.takeWhile
          fun c => c != '@')) := by
  constructor
  · unfold sendEmailValidate
    by_cases h1 : recipient = [] ∨ sender = [] ∨ password = [] ∨ subject = [] ∨ body = []
    · rw [if_pos h1]
      simp only [reduceCtorEq, false_iff]
      intro hc
      rcases h1 with h | h | h | h | h
      · exact hc.1 h
      · exact hc.2.1 h
      · exact hc.2.2.1 h
      · exact hc.2.2.2.1 h
      · exact hc.2.2.2.2.1 h
    · rw [if_neg h1]
      push_neg at h1
      by_cases h2 : isValidEmail recipient = true
      · rw [if_neg (by rw [h2]; exact fun h => h rfl)]
        by_cases h3 : isValidEmail sender = true
        · rw [if_neg (by rw [h3]; exact fun h => h rfl)]
          simp [h1.1, h1.2.1, h1.2.2.1, h1.2.2.2.1, h1.2.2.2.2, h2, h3]
        · rw [if_pos (by simpa using h3)]
          simp only [reduceCtorEq, false_iff]
          intro hc
          exact h3 hc.2.2.2.2.2.2
      · rw [if_pos (by simpa using h2)]
        simp only [reduceCtorEq, false_iff]
        intro hc
        exact h2 hc.2.2.2.2.2.1
  · unfold isValidEmail
    rw [Bool.and_eq_true, decide_eq_true_iff, decide_eq_true_iff]
    constructor
    · rintro ⟨hat, hdot⟩
      rw [pySplit_second '@' recipient hat] at hdot
      exact ⟨hat, hdot⟩
    · rintro ⟨hat, hdot⟩
      rw [pySplit_second '@' recipient hat]
      exact ⟨hat, hdot⟩

/-! ### Frequency and enumeration lemmas (for claim C3) -/

/-- Reading the frequency dict after the counting loop: the initial
value plus, for scoring-eligible tokens, the occurrence count. -/
theorem wordFreqAux_eval : ∀ (ws : List Str) (f : Str → Nat) (w : Str),
    wordFreqAux ws f w =
      f w + (if isStop w ∨ w.length ≤ 2 then 0 else ws.count w)
  | [], f, w => by simp [wordFreqAux]
  | v :: ws, f, w => by
    rw [wordFreqAux]
    by_cases hv : isStop v ∨ v.length ≤ 2
    · rw [if_pos hv, wordFreqAux_eval ws f w]
      by_cases hw : isStop w ∨ w.length ≤ 2
      · rw [if_pos hw, if_pos hw]
      · have hvw : (v == w) = false := by
          rw [beq_eq_false_iff_ne]
          intro he
          rw [he] at hv
          exact hw hv
        rw [if_neg hw, if_neg hw, List.count_cons, hvw]
        simp
    · rw [if_neg hv, wordFreqAux_eval ws (fun x => if x = v then f x + 1 else f x) w]
      by_cases hw2 : w = v
      · have hnsw : ¬(isStop w ∨ w.length ≤ 2) := by
          rw [hw2]
          exact hv
        have hvw : (v == w) = true := beq_iff_eq.mpr hw2.symm
        rw [if_pos hw2, if_neg hnsw, if_neg hnsw, List.count_cons, hvw]
        simp
        omega
      · have hvw : (v == w) = false := beq_eq_false_iff_ne.mpr fun he => hw2 he.symm
        rw [if_neg hw2, List.count_cons, hvw]
        simp

/-- Enumerated indices stay below the offset plus length. -/
theorem enumFromN_mem : ∀ (l : List α) (n : Nat) (p : Nat × α),
    p ∈ enumFromN n l → p.1 < n + l.length
  | [], _, p, h => absurd h (List.not_mem_nil p)
  | a :: as, n, p, h => by
    rw [enumFromN] at h
    rcases List.mem_cons.mp h with rfl | h2
    · simp only [List.length_cons]
      simp
    · have := enumFromN_mem as (n + 1) p h2
      simp only [List.length_cons]
      omega

/-- A text that strips to nothing has no sentences. -/
theorem pySentences_eq_nil {text : Str} (h : pyStrip text = []) :
    pySentences text = [] := by
  unfold pySentences
  rw [h]
  rfl

/-! ### The exact pipeline equals its scaled integer copy (for C3) -/

/-- Insertion commutes with mapping when the comparison is pulled
back. -/
theorem insortOne_map (g : α → β) (le : β → β → Bool) (a : α) :
    ∀ l : List α, insortOne le (g a) (l.map g) =
      (insortOne (fun x y => le (g x) (g y)) a l).map g
  | [] => rfl
  | b :: bs => by
    simp only [List.map_cons, insortOne]
    by_cases h : le (g a) (g b) = true
    · rw [if_pos h, if_pos h]
      simp
    · rw [if_neg h, if_neg h, insortOne_map g le a bs]
      simp

/-- The stable sort commutes with mapping when the comparison is pulled
back. -/
theorem stableSort_map (g : α → β) (le : β → β → Bool) :
    ∀ l : List α, stableSort le (l.map g) =
      (stableSort (fun x y => le (g x) (g y)) l).map g
  | [] => rfl
  | a :: as => by
    simp only [List.map_cons, stableSort]
    rw [stableSort_map g le as, insortOne_map]

/-- Insertion depends on the comparison only at the inserted element
against the list elements. -/
theorem insortOne_congr {le₁ le₂ : α → α → Bool} (a : α) :
    ∀ l : List α, (∀ b ∈ l, le₁ a b = le₂ a b) →
      insortOne le₁ a l = insortOne le₂ a l
  | [], _ => rfl
  | b :: bs, h => by
    simp only [insortOne]
    rw [h b (List.mem_cons_self b bs),
      insortOne_congr a bs fun x hx => h x (List.mem_cons_of_mem b hx)]

/-- The stable sort depends on the comparison only on the list
elements. -/
theorem stableSort_congr {le₁ le₂ : α → α → Bool} :
    ∀ l : List α, (∀ a ∈ l, ∀ b ∈ l, le₁ a b = le₂ a b) →
      stableSort le₁ l = stableSort le₂ l
  | [], _ => rfl
  | a :: as, h => by
    simp only [stableSort]
    rw [stableSort_congr as fun x hx y hy =>
      h x (List.mem_cons_of_mem a hx) y (List.mem_cons_of_mem a hy)]
    apply insortOne_congr
    intro b hb
    exact h a (List.mem_cons_self a as) b
      (List.mem_cons_of_mem a ((stableSort_perm le₂ as).mem_iff.mp hb))

/-- Scaling the exact scores by `50` is strictly monotone. -/
theorem scaleLt_iff (n1 k1 n2 k2 : ℕ) :
    ((n1 : ℚ) + (k1 : ℚ) * (2 / 100) < (n2 : ℚ) + (k2 : ℚ) * (2 / 100)) ↔
      50 * n1 + k1 < 50 * n2 + k2 := by
  constructor
  · intro h
    by_contra hc
    push_neg at hc
    have hq : ((50 * n2 + k2 : ℕ) : ℚ) ≤ ((50 * n1 + k1 : ℕ) : ℚ) := by
      exact_mod_cast hc
    push_cast at hq
    linarith
  · intro h
    have hq : ((50 * n1 + k1 : ℕ) : ℚ) < ((50 * n2 + k2 : ℕ) : ℚ) := by
      exact_mod_cast h
    push_cast at hq
    linarith

/-- Comparison of exact scores is comparison of their scaled integer
copies, for in-range ordinal indices. -/
theorem exactScore_lt_iff (text : Str) (total i j : Nat) (si sj : Str)
    (hi : i ≤ total) (hj : j ≤ total) :
    (exactScore text total i si < exactScore text total j sj ↔
      exactScore50 text total i si < exactScore50 text total j sj) := by
  unfold exactScore exactScore50
  rw [show ((total : ℚ) - (i : ℚ)) = ((total - i : ℕ) : ℚ) from
      (Nat.cast_sub hi).symm,
    show ((total : ℚ) - (j : ℚ)) = ((total - j : ℕ) : ℚ) from
      (Nat.cast_sub hj).symm]
  exact scaleLt_iff _ _ _ _

/-- The rank-select-reorder pipeline yields the same sentences for the
rational scores and for any integer scores carrying the same strict
order on the scored list. -/
theorem rankedPipeline_eq (base : List (Nat × Str)) (maxS : Nat)
    (sQ : Nat → Str → ℚ) (s50 : Nat → Str → ℕ)
    (hag : ∀ p ∈ base, ∀ q ∈ base,
      (sQ p.1 p.2 < sQ q.1 q.2 ↔ s50 p.1 p.2 < s50 q.1 q.2)) :
    (stableSort idxLe
        ((stableSort exactRankLe (base.map fun p => (sQ p.1 p.2, p.1, p.2))).take
          maxS)).map (fun t => t.2.2) =
      (stableSort idxLe
        ((stableSort exactRank50Le (base.map fun p => (s50 p.1 p.2, p.1, p.2))).take
          maxS)).map (fun t => t.2.2) := by
  simp only [stableSort_map]
  have hco : stableSort
      (fun x y : Nat × Str =>
        exactRankLe (sQ x.1 x.2, x.1, x.2) (sQ y.1 y.2, y.1, y.2)) base =
    stableSort
      (fun x y : Nat × Str =>
        exactRank50Le (s50 x.1 x.2, x.1, x.2) (s50 y.1 y.2, y.1, y.2)) base := by
    apply stableSort_congr
    intro p hp q hq
    simp only [exactRankLe, exactRank50Le]
    have h1 : (-(sQ p.1 p.2) < -(sQ q.1 q.2)) ↔ (s50 q.1 q.2 < s50 p.1 p.2) := by
      rw [neg_lt_neg_iff]
      exact hag q hq p hp
    have h2 : (-(sQ q.1 q.2) < -(sQ p.1 p.2)) ↔ (s50 p.1 p.2 < s50 q.1 q.2) := by
      rw [neg_lt_neg_iff]
      exact hag p hp q hq
    exact if_congr h1 rfl (if_congr h2 rfl rfl)
  rw [hco, ← List.map_take, ← List.map_take]
  simp only [stableSort_map]
  rw [List.map_map, List.map_map]
  rfl

/-- The exact pipeline of claim C3 coincides with its scaled integer
copy. -/
theorem exactSummarize_eq_scaled (text : Str) (maxS : Nat) :
    exactSummarize text maxS = exactSummarize50 text maxS := by
  simp only [exactSummarize, exactSummarize50]
  refine congrArg joinSep
    (rankedPipeline_eq (enumFromN 0 (pySentences text)) maxS
      (fun i s => exactScore text (pySentences text).length i s)
      (fun i s => exactScore50 text (pySentences text).length i s) ?_)
  intro p hp q hq
  have hpl : p.1 ≤ (pySentences text).length :=
    le_of_lt (by simpa using enumFromN_mem _ 0 p hp)
  have hql : q.1 ≤ (pySentences text).length :=
    le_of_lt (by simpa using enumFromN_mem _ 0 q hq)
  exact exactScore_lt_iff text _ p.1 q.1 p.2 q.2 hpl hql

/-! ### Claim C3 -/

set_option maxRecDepth 100000 in
set_option maxHeartbeats 2000000 in
/-- C3 counterexample: on the 84-sentence document `cexText` with
`maxSentences = 1`, the program's binary64 scoring ranks the sentence
`zeb.` (exact score `1 + 34 * 0.02`, float `1.6800000000000002`)
strictly above the first sentence (exact score `84 * 0.02`, float
`1.68`), although their exact scores tie at `42 / 25`; the claimed
exact ranking breaks the tie by ordinal index instead, so `summarize`
returns `zeb.` where the claimed pipeline returns `a.`. -/
theorem counterexample_C3_float_tie :
    1 < (pySentences cexText).length ∧
      summarize cexText 1 ≠ exactSummarize cexText 1 := by
  refine ⟨by decide, ?_⟩
  rw [exactSummarize_eq_scaled]
  decide

/-- C3 amended: whenever a text has more sentences than `maxSentences`,
`summarize` computes exactly the specified pipeline with the source's
binary64 arithmetic: each sentence is scored as
`fl(fl(freqSum) + fl(fl(totalSentences - ordinalIndex) * 0.02))`, where
`freqSum` is the sum of the document-level frequencies of its tokens
(stop words and tokens of length at most two contributing zero) and
`0.02` is the binary64 literal; the sentences are ranked by
`(-score, ordinalIndex)` ascending under float comparison, the top
`maxSentences` are kept, re-sorted by ordinal index ascending, and
joined.  With exact real arithmetic in place of binary64 the statement
is false: see the counterexample above. -/
theorem claim_C3_summarize_is_ranked_selection (text : Str) (maxS : Nat)
    (h : maxS < (pySentences text).length) :
    summarize text maxS = specSummarize text maxS := by
  have hstrip : pyStrip text ≠ [] := by
    intro he
    rw [pySentences_eq_nil he] at h
    exact Nat.not_lt_zero maxS h
  have htext : text ≠ [] := by
    intro he
    apply hstrip
    rw [he]
    rfl
  have hie1 : text.isEmpty = false := by
    cases ht : text with
    | nil => exact absurd ht htext
    | cons a b => rfl
  have hie2 : (pyStrip text).isEmpty = false := by
    cases ht : pyStrip text with
    | nil => exact absurd ht hstrip
    | cons a b => rfl
  have hfreq : ∀ w : Str, wordFreq text w = specDocFreq text w := by
    intro w
    unfold wordFreq specDocFreq
    rw [wordFreqAux_eval, Nat.zero_add]
  have hscore : ∀ p ∈ enumFromN 0 (pySentences text),
      ((scoreOf (wordFreq text) (pySentences text).length p.1 p.2, p.1, p.2) :
          Dy × Nat × Str)
        = (specScore text (pySentences text).length p.1 p.2, p.1, p.2) := by
    intro p hp
    have hlt : p.1 < (pySentences text).length := by
      have := enumFromN_mem (pySentences text) 0 p hp
      simpa using this
    have e1 : scoreOf (wordFreq text) (pySentences text).length p.1 p.2 =
        specScore text (pySentences text).length p.1 p.2 := by
      unfold scoreOf specScore
      have hsum : ((findWords (lowerStr p.2)).map (wordFreq text)).sum =
          ((findWords (lowerStr p.2)).map (specDocFreq text)).sum := by
        congr 1
        exact List.map_congr_left fun w _ => hfreq w
      have hk : (max 0 (((pySentences text).length : ℤ) - (p.1 : ℤ))).toNat =
          (pySentences text).length - p.1 := by
        omega
      rw [hsum, hk]
    rw [e1]
  unfold summarize specSummarize
  rw [hie1, hie2]
  simp only [Bool.or_false, Bool.false_eq_true, if_false]
  rw [if_neg (not_le.mpr h), List.map_congr_left hscore]

/-- Witness for C3 on a concrete two-sentence text with a one-sentence
budget. -/
theorem claim_C3_witness :
    1 < (pySentences "Dogs bark loudly. Cats nap quietly.".toList).length ∧
      summarize "Dogs bark loudly. Cats nap quietly.".toList 1 =
        specSummarize "Dogs bark loudly. Cats nap quietly.".toList 1 :=
  ⟨by decide,
    claim_C3_summarize_is_ranked_selection
      "Dogs bark loudly. Cats nap quietly.".toList 1 (by decide)⟩

end Shortee
